import Mathlib

/-!
Verification of the violation-certificate protocol core (commitment scheme,
transcript builder, prover, verifier, fingerprinting and slicer) of the
`ccsccs` repository, as a shallow embedding in Lean 4.

Modelling conventions:

* Python floats are embedded as exact rationals (`ℚ`).  Arithmetic is
  performed through kernel-computable wrappers (`qadd`, `qmul`, ...) built on
  `Rat.divInt`, which are proved equal to the Mathlib field operations.
* Python dicts are association lists with unique keys; iteration that the
  source immediately sorts (`sorted(...)`, `json.dumps(..., sort_keys=True)`)
  is modelled by an explicit stable insertion sort over the key order, which
  is the code-point lexicographic order Python uses on strings.
* `hashlib.sha256(...).hexdigest()` is an abstract parameter
  `H : String → String`; `json.dumps(..., sort_keys=True, separators=(",",":"))`
  is split into a canonical JSON tree (`CJson`, built by the embedding with
  the keys already sorted, mirroring `sort_keys=True`) followed by an abstract
  injective printer `J : CJson → String`.  `secrets.token_hex(16)` is an
  externally supplied nonce argument, and `math.log1p` an abstract
  `lg : ℕ → ℚ`; these stand for the standard-library primitives the
  repository calls, not for repository code.
* Fallible code returns `Except`: `Prover.make_proof` unconditionally raises
  `NameError` in the source (prover.py line 124 evaluates the undefined name
  `witness_commitments`; the local bound on line 79 is `witness_commits`),
  so its model returns `Except.error` after performing the computations the
  source performs before the failing line.
-/
/-! ## Kernel-computable rational arithmetic

`Rat.add`/`Rat.mul`/... are `@[irreducible]`, so terms built from them do not
evaluate under `decide`.  The wrappers below compute via `Rat.divInt` and are
proved equal to the ring operations on `ℚ`. -/

def qadd (a b : ℚ) : ℚ :=
  Rat.divInt (a.num * (b.den : ℤ) + b.num * (a.den : ℤ)) ((a.den : ℤ) * (b.den : ℤ))

def qneg (a : ℚ) : ℚ := Rat.divInt (-a.num) (a.den : ℤ)

def qsub (a b : ℚ) : ℚ := qadd a (qneg b)

def qmul (a b : ℚ) : ℚ := Rat.divInt (a.num * b.num) ((a.den : ℤ) * (b.den : ℤ))

def qle (a b : ℚ) : Bool := !(Rat.blt b a)

def qabs (a : ℚ) : ℚ := if Rat.blt a 0 then qneg a else a

def qmax (a b : ℚ) : ℚ := if Rat.blt a b then b else a

def qnat (n : ℕ) : ℚ := Rat.divInt (Int.ofNat n) 1

/-! ## Code-point string order and stable insertion sort

Python compares strings lexicographically by Unicode code point, and
`list.sort` / `sorted` are stable; `json.dumps(..., sort_keys=True)` and
`sorted(d.items())` therefore order dictionary entries by this order on keys.
`String.lt` does not reduce in the kernel, so the same order is defined here
on the underlying character lists. -/

def lexLe : List Char → List Char → Bool
  | [], _ => true
  | _ :: _, [] => false
  | a :: as, b :: bs => if a < b then true else if b < a then false else lexLe as bs

def strLe (a b : String) : Bool := lexLe a.data b.data

def insertBy {α : Type} (le : α → α → Bool) (x : α) : List α → List α
  | [] => [x]
  | y :: ys => if le x y then x :: y :: ys else y :: insertBy le x ys

def sortBy {α : Type} (le : α → α → Bool) : List α → List α
  | [] => []
  | x :: xs => insertBy le x (sortBy le xs)

/-! ## Sorted association lists (Python dict canonicalization) -/

def keyLe {α : Type} (a b : String × α) : Bool := strLe a.1 b.1

def sortPairs {α : Type} (l : List (String × α)) : List (String × α) :=
  sortBy keyLe l

/-! ## Data model: constraints, R1CS, evaluator (`r1cs_utils.py`)

`LinearForm`s, witnesses and the `variables` map are Python dicts, embedded
as association lists with unique keys.  A variable absent from an assignment
evaluates as 0 (`assignment.get(var, 0.0)`). -/

structure Constraint where
  A : List (String × ℚ)
  B : List (String × ℚ)
  C : List (String × ℚ)
  source : String
  deriving DecidableEq

structure R1CS where
  vars : List (String × ℕ)
  constraints : List Constraint
  deriving DecidableEq

def eval_linear_form (linear : List (String × ℚ)) (assignment : List (String × ℚ)) : ℚ :=
  linear.foldl (fun s p => qadd s (qmul p.2 ((assignment.lookup p.1).getD 0))) 0

def eval_constraint (constraint : Constraint) (assignment : List (String × ℚ)) : ℚ :=
  qsub
    (qmul (eval_linear_form constraint.A assignment)
      (eval_linear_form constraint.B assignment))
    (eval_linear_form constraint.C assignment)

/-- The set of variable names appearing in A, B or C.  The source returns a
Python `set`; its arbitrary iteration order is canonicalized here to the
sorted order (every consumer either sorts it or feeds it into a dict, so the
order is unobservable). -/
def constraint_support (constraint : Constraint) : List String :=
  sortBy strLe (((constraint.A ++ constraint.B ++ constraint.C).map Prod.fst).dedup)

def constraint_nz_count (constraint : Constraint) : ℕ :=
  (constraint.A.filter (fun p => p.2 != 0)).length
    + (constraint.B.filter (fun p => p.2 != 0)).length
    + (constraint.C.filter (fun p => p.2 != 0)).length

structure CSummary where
  support_size : ℕ
  nz_count : ℕ
  support : List String
  source : String
  deriving DecidableEq

def constraint_summary (constraint : Constraint) : CSummary :=
  ⟨(constraint_support constraint).length, constraint_nz_count constraint,
    constraint_support constraint, constraint.source⟩

/-! ## Tolerance check (`math.isclose` with rel_tol=1e-9, abs_tol=1e-12) -/

def relTol : ℚ := Rat.divInt 1 (10 ^ 9)

def absTol : ℚ := Rat.divInt 1 (10 ^ 12)

def isclose (a b : ℚ) : Bool :=
  qle (qabs (qsub a b)) (qmax (qmul relTol (qmax (qabs a) (qabs b))) absTol)

/-! ## Canonical JSON trees

`json.dumps(..., sort_keys=True, separators=(",", ":"))` maps a Python value
to its canonical JSON text.  The embedding splits this into a canonical tree
(`CJson`, with object keys sorted by the embedding when it builds a tree from
a dict) and an abstract printer `J : CJson → String` standing for the
standard library's rendering of that tree. Python serializes ints and floats
differently, hence the separate `int` and `num` constructors. -/

inductive CJson where
  | null : CJson
  | int : ℤ → CJson
  | num : ℚ → CJson
  | str : String → CJson
  | arr : List CJson → CJson
  | obj : List (String × CJson) → CJson

/-! ## Commitment scheme (`commitment.py`)

`commit_map` draws a fresh 128-bit nonce from `secrets.token_hex(16)`; the
nonce is an explicit argument here (externally supplied randomness).  The
digest is `sha256(canonical_serialization + "|" + nonce)`, with the hash
abstract. -/

def optJson : Option ℚ → CJson
  | none => CJson.null
  | some q => CJson.num q

def mapJson (m : List (String × Option ℚ)) : CJson :=
  CJson.obj (sortPairs (m.map (fun p => (p.1, optJson p.2))))

def canonical_serialize_map (J : CJson → String) (m : List (String × Option ℚ)) : String :=
  J (mapJson m)

def commit_map (H : String → String) (J : CJson → String)
    (mapping : List (String × Option ℚ)) (nonce : String) : String × String :=
  (H (canonical_serialize_map J mapping ++ ("|") ++ nonce), nonce)

structure Opening where
  mapping : List (String × Option ℚ)
  nonce : String
  deriving DecidableEq

def open_map (mapping : List (String × Option ℚ)) (nonce : String) : Opening :=
  ⟨mapping, nonce⟩

def verify_commit (H : String → String) (J : CJson → String)
    (commitment_hex : String) (opening : Opening) : Bool :=
  H (canonical_serialize_map J opening.mapping ++ ("|") ++ opening.nonce) == commitment_hex

/-! ## Transcript builder (`violation_iop.py`)

A transcript is the dict `{witness_commitments, violations, meta, digest}`;
`digest` is the hash of the canonical serialization of the other three
fields (`json.dumps` with sorted keys; at top level the sorted key order is
`meta < violations < witness_commitments`).  Entry dicts serialize with key
order `idx < opening < residual < source`.  An opening mapping's values can
be `None` (a disclosed-but-absent variable), hence `Option ℚ`. -/

structure VEntry where
  idx : Option ℤ
  residual : ℚ
  opening : Option Opening
  source : String
  deriving DecidableEq

structure Transcript where
  witness_commitments : List (String × String)
  violations : List VEntry
  meta : List (String × ℤ)
  digest : String
  deriving DecidableEq

def entryJson (e : VEntry) : CJson :=
  CJson.obj
    [(("idx"), match e.idx with | none => CJson.null | some i => CJson.int i),
     (("opening"), match e.opening with
       | none => CJson.null
       | some op =>
          CJson.obj [(("mapping"), mapJson op.mapping), (("nonce"), CJson.str op.nonce)]),
     (("residual"), CJson.num e.residual),
     (("source"), CJson.str e.source)]

def metaJson (meta : List (String × ℤ)) : CJson :=
  CJson.obj (sortPairs (meta.map (fun p => (p.1, CJson.int p.2))))

def wcJson (wc : List (String × String)) : CJson :=
  CJson.obj (sortPairs (wc.map (fun p => (p.1, CJson.str p.2))))

def txBodyJson (wc : List (String × String)) (ve : List VEntry)
    (meta : List (String × ℤ)) : CJson :=
  CJson.obj [(("meta"), metaJson meta),
    (("violations"), CJson.arr (ve.map entryJson)),
    (("witness_commitments"), wcJson wc)]

def transcript_digest (H : String → String) (J : CJson → String)
    (wc : List (String × String)) (ve : List VEntry) (meta : List (String × ℤ)) : String :=
  H (J (txBodyJson wc ve meta))

def make_transcript (H : String → String) (J : CJson → String)
    (witness_commitments : List (String × String)) (violation_entries : List VEntry)
    (meta : List (String × ℤ)) : Transcript :=
  ⟨witness_commitments, violation_entries, meta,
    transcript_digest H J witness_commitments violation_entries meta⟩

/-- Digest validation: Python first checks `if not expected` — the empty
string is falsy — then recomputes the digest over the transcript with the
`digest` field stripped. -/
def validate_transcript_digest (H : String → String) (J : CJson → String)
    (t : Transcript) : Bool :=
  if t.digest == "" then false
  else transcript_digest H J t.witness_commitments t.violations t.meta == t.digest

/-! ## Fingerprinting (`fingerprint.py`)

`fmt : ℚ → String` stands for Python's fixed-precision `f"{float(c):.12g}"`
formatting; `strTake` is character-level slicing `h[:truncate]`. -/

def strTake (s : String) (n : ℕ) : String := String.mk (s.data.take n)

def normalize_part (fmt : ℚ → String) (tag : String) (entries : List (String × ℚ)) : String :=
  tag ++ (":") ++ String.intercalate (",")
    ((sortPairs entries).map (fun p => p.1 ++ ("=") ++ fmt p.2))

def normalize_constraint_representation (fmt : ℚ → String) (c : Constraint) : String :=
  String.intercalate ("|")
    [normalize_part fmt ("A") c.A, normalize_part fmt ("B") c.B,
     normalize_part fmt ("C") c.C, ("src:") ++ c.source]

def fingerprint_constraint (H : String → String) (fmt : ℚ → String) (c : Constraint) : String :=
  strTake (H (normalize_constraint_representation fmt c)) 16

/-! ## Slicer (`slicer.py`)

`lg : ℕ → ℚ` stands for `math.log1p` applied to the support size; it only
enters the score, never the selection logic.  Python's stable `list.sort`
with `reverse=True` on the score key is the stable insertion sort under
`scoreDescLe`. -/

def score_constraint (lg : ℕ → ℚ) (c : Constraint) : ℚ :=
  qmul (qnat (constraint_nz_count c)) (qadd 1 (lg (constraint_support c).length))

structure Candidate where
  idx : ℕ
  score : ℚ
  fingerprint : String
  summary : CSummary
  constraint : Constraint
  deriving DecidableEq

def sliceStep (H : String → String) (fmt : ℚ → String) (lg : ℕ → ℚ) (deduplicate : Bool)
    (acc : List Candidate × List String) (p : ℕ × Constraint) :
    List Candidate × List String :=
  let fp := fingerprint_constraint H fmt p.2
  if deduplicate && acc.2.contains fp then acc
  else
    (acc.1 ++ [⟨p.1, score_constraint lg p.2, fp, constraint_summary p.2, p.2⟩],
      acc.2 ++ [fp])

def scoreDescLe (a b : Candidate) : Bool := qle b.score a.score

def slice_r1cs (H : String → String) (fmt : ℚ → String) (lg : ℕ → ℚ)
    (r : R1CS) (top_k : ℕ) (deduplicate : Bool) : List Candidate :=
  let folded := r.constraints.enum.foldl (sliceStep H fmt lg deduplicate) ([], [])
  (sortBy scoreDescLe folded.1).take top_k

/-! ## Prover (`prover.py`)

`_ensure_one` appends a missing `ONE = 1` entry (a mutation of the caller's
witness in Python, modelled functionally).  `commit_witness` commits the full
witness under the label `WITNESS` and each variable singleton separately, in
`sorted(witness.items())` order, merged as the dict
`{"WITNESS": full, **per_var}` — so a witness variable literally named
`WITNESS` overwrites the full-witness commitment, which `dictInsert`
reproduces; the per-variable openings the Python object stores privately are
dead state and not modelled.  The entry loop silently skips out-of-range
candidate indices; a violated constraint's opening restricts the witness to
the constraint support (`witness.get(v)` — `None` for a missing variable)
and reuses the WITNESS-level nonce.  `make_proof` itself never returns a
transcript: after the loop, the transcript-assembly line (prover.py line
124) evaluates the undefined name `witness_commitments` (the local binding
on line 79 is `witness_commits`), so every call raises `NameError`.  It is
therefore modelled as returning `Except`, with `Prover.make_proof_entries`
naming the entry list the loop has built by the time of the failure. -/

def ensureOne (w : List (String × ℚ)) : List (String × ℚ) :=
  if (w.lookup ("ONE")).isSome then w else w ++ [(("ONE"), 1)]

def wOpt (w : List (String × ℚ)) : List (String × Option ℚ) :=
  w.map (fun p => (p.1, some p.2))

/-- Python dict assignment `d[k] = v`: replace the value in place when the
key exists, append the pair otherwise. -/
def dictInsert {α : Type} (k : String) (v : α) (d : List (String × α)) :
    List (String × α) :=
  if (d.lookup k).isSome then d.map (fun p => if p.1 = k then (p.1, v) else p)
  else d ++ [(k, v)]

def Prover.commit_witness (H : String → String) (J : CJson → String)
    (nW : String) (pvn : String → String) (witness : List (String × ℚ)) :
    List (String × String) :=
  let w2 := ensureOne witness
  let full := commit_map H J (wOpt w2) nW
  let per_var := (sortPairs w2).map (fun p => (p.1, (commit_map H J (wOpt [p]) (pvn p.1)).1))
  per_var.foldl (fun d p => dictInsert p.1 p.2 d) [((("WITNESS")), full.1)]

def emptyConstraint : Constraint := ⟨[], [], [], ""⟩

/-- The violation-entry list built by `make_proof`'s loop (prover.py lines
83-120); the loop completes before the assembly line fails. -/
def Prover.make_proof_entries (nW : String) (r : R1CS)
    (witness : List (String × ℚ)) (candidate_idxs : List ℤ) : List VEntry :=
  let w2 := ensureOne witness
  let constraints := r.constraints
  candidate_idxs.filterMap (fun idx =>
    if idx < 0 ∨ (constraints.length : ℤ) ≤ idx then none
    else
      let c := constraints.getD idx.toNat emptyConstraint
      let residual := eval_constraint c w2
      if isclose residual 0 then
        some ⟨some idx, 0, none, c.source⟩
      else
        let opening_map := (constraint_support c).map (fun v => (v, w2.lookup v))
        some ⟨some idx, residual, some (open_map opening_map nW), c.source⟩)

/-- The `NameError` raised at prover.py line 124. -/
def nameErrorMsg : String :=
  "NameError: name witness_commitments is not defined"

def Prover.make_proof (H : String → String) (J : CJson → String)
    (nW : String) (pvn : String → String) (r : R1CS)
    (witness : List (String × ℚ)) (candidate_idxs : List ℤ) :
    Except String Transcript :=
  let w2 := ensureOne witness
  let _witness_commits := Prover.commit_witness H J nW pvn w2
  let _entries := Prover.make_proof_entries nW r witness candidate_idxs
  Except.error nameErrorMsg

/-! ## Verifier (`verifier.py`)

The per-entry report rows mirror the Python `entry_report` dicts appended to
`report["residual_checks"]` (the separate `commit_checks` list is never
written to and is omitted).  The verifier evaluates linear forms with its own
local closure in which an explicitly-`None` disclosed value counts as 0. -/

structure EntryReport where
  idx : Option ℤ
  source : String
  opening_ok : Option Bool
  residual_ok : Option Bool
  computed_residual : Option ℚ
  deriving DecidableEq

structure Report where
  digest_ok : Bool
  residual_checks : List EntryReport
  deriving DecidableEq

def eval_linear_opt (linear : List (String × ℚ))
    (assignment : List (String × Option ℚ)) : ℚ :=
  linear.foldl (fun s p => qadd s (qmul p.2 (((assignment.lookup p.1).join).getD 0))) 0

/-- One iteration of the verifier's entry loop: the produced report row and
the entry's conjunctive contribution to `all_ok`. -/
def checkEntry (H : String → String) (J : CJson → String)
    (witness_top_commit : Option String) (constraints : List Constraint)
    (e : VEntry) : EntryReport × Bool :=
  match e.opening with
  | none =>
    let rok := isclose e.residual 0
    (⟨e.idx, e.source, none, some rok, none⟩, rok)
  | some opening =>
    let opening_ok : Option Bool :=
      match witness_top_commit with
      | some d => if d == "" then none else some (verify_commit H J d opening)
      | none => none
    let commit_pass : Bool := opening_ok.getD true
    match e.idx with
    | none => (⟨none, e.source, opening_ok, some false, none⟩, false)
    | some idx =>
      if idx < 0 ∨ (constraints.length : ℤ) ≤ idx then
        (⟨some idx, e.source, opening_ok, some false, none⟩, false)
      else
        let c := constraints.getD idx.toNat emptyConstraint
        let computed :=
          qsub (qmul (eval_linear_opt c.A opening.mapping)
              (eval_linear_opt c.B opening.mapping))
            (eval_linear_opt c.C opening.mapping)
        let rok := isclose computed e.residual
        (⟨some idx, e.source, opening_ok, some rok, some computed⟩, commit_pass && rok)

def Verifier.verify (H : String → String) (J : CJson → String)
    (r : R1CS) (transcript : Transcript) : Bool × Report :=
  if validate_transcript_digest H J transcript then
    let witness_top_commit := transcript.witness_commitments.lookup ("WITNESS")
    let checked := transcript.violations.map
      (checkEntry H J witness_top_commit r.constraints)
    ((checked.map Prod.snd).all (fun x => x), ⟨true, checked.map Prod.fst⟩)
  else
    (false, ⟨false, []⟩)

def toleranceConstraint : Constraint :=
  ⟨[(("x"), Rat.divInt 1 (10 ^ 13))], [(("ONE"), 1)], [], ("tiny")⟩

def toleranceWitness : List (String × ℚ) := [(("x"), 1), (("ONE"), 1)]

/-! ## Calibration scenario data (spec section 8, Scenario A) -/

def scenarioConstraint0 : Constraint :=
  ⟨[(("a"), 1)], [(("b"), 1)], [(("c"), 1)], ("c <== a * b;")⟩

def scenarioConstraint1 : Constraint :=
  ⟨[(("a"), 1), (("b"), 1)], [(("ONE"), 1)], [(("d"), 1)], ("d <== a + b;")⟩

def scenarioR1CS : R1CS :=
  ⟨[(("ONE"), 0), (("a"), 1), (("b"), 2), (("c"), 3)],
    [scenarioConstraint0, scenarioConstraint1]⟩

def scenarioWitness : List (String × ℚ) :=
  [(("ONE"), 1), (("a"), 3), (("b"), 4), (("c"), 12)]

/-! ## Canonical transcript forms

The transcript digest input is the canonical JSON tree of the
digest-stripped transcript.  Two transcripts have the same tree exactly when
they agree as *dicts*, i.e. on their canonical (key-sorted) forms;
`canonBody` is that canonical form.  `tamperHash`/`tamperJson` are concrete
instantiations of the abstract hash and printer used by witnesses. -/

def canonOpening (o : Opening) : Opening := ⟨sortPairs o.mapping, o.nonce⟩

def canonEntry (e : VEntry) : VEntry :=
  ⟨e.idx, e.residual, e.opening.map canonOpening, e.source⟩

def canonBody (wc : List (String × String)) (ve : List VEntry)
    (meta : List (String × ℤ)) :
    List (String × String) × List VEntry × List (String × ℤ) :=
  (sortPairs wc, ve.map canonEntry, sortPairs meta)

def tamperHash : String → String := fun s => ("h") ++ s

def tamperJson : CJson → String := fun j =>
  match j with
  | CJson.obj (_ :: (_, CJson.arr (CJson.obj (_ :: _ :: (_, CJson.num r) :: _) :: _)) :: _) =>
      if r = 1 then ("x") else ("y")
  | _ => ("z")

/-! ## Slicer fold characterization -/

def mkCandidate (H : String → String) (fmt : ℚ → String) (lg : ℕ → ℚ)
    (p : ℕ × Constraint) : Candidate :=
  ⟨p.1, score_constraint lg p.2, fingerprint_constraint H fmt p.2,
    constraint_summary p.2, p.2⟩

/-- The sequence of (index, constraint) pairs the dedup fold keeps: a pair is
kept exactly when its fingerprint has not been seen before. -/
def scanKept (H : String → String) (fmt : ℚ → String) :
    List String → List (ℕ × Constraint) → List (ℕ × Constraint)
  | _, [] => []
  | seen, p :: ps =>
    if seen.contains (fingerprint_constraint H fmt p.2) then
      scanKept H fmt seen ps
    else p :: scanKept H fmt (seen ++ [fingerprint_constraint H fmt p.2]) ps

def dupConstraint : Constraint := ⟨[(("a"), 1)], [(("b"), 1)], [(("c"), 1)], ("s")⟩

def dupR1CS : R1CS := ⟨[], [dupConstraint, dupConstraint, dupConstraint]⟩

theorem qadd_eq (a b : ℚ) : qadd a b = a + b := by
  rw [qadd, ← Rat.divInt_add_divInt a.num b.num
    (by exact_mod_cast a.den_ne_zero) (by exact_mod_cast b.den_ne_zero)]
  rw [Rat.num_divInt_den, Rat.num_divInt_den]

theorem qneg_eq (a : ℚ) : qneg a = -a := by
  rw [qneg, ← Rat.neg_divInt, Rat.num_divInt_den]

theorem qsub_eq (a b : ℚ) : qsub a b = a - b := by
  rw [qsub, qadd_eq, qneg_eq, sub_eq_add_neg]

theorem qmul_eq (a b : ℚ) : qmul a b = a * b := by
  rw [qmul, ← Rat.divInt_mul_divInt' a.num (a.den : ℤ) b.num (b.den : ℤ)]
  rw [Rat.num_divInt_den, Rat.num_divInt_den]

theorem qle_iff (a b : ℚ) : qle a b = true ↔ a ≤ b := by
  constructor
  · intro h
    simp only [qle, Bool.not_eq_true', Bool.not_eq_false] at h
    exact h
  · intro h
    simp only [qle, Bool.not_eq_true', Bool.not_eq_false]
    exact h

theorem qabs_eq (a : ℚ) : qabs a = |a| := by
  rcases lt_or_ge a 0 with h | h
  · rw [abs_of_neg h, qabs, if_pos (show Rat.blt a 0 = true from h), qneg_eq]
  · rw [abs_of_nonneg h, qabs,
      if_neg (show ¬ Rat.blt a 0 = true from not_lt.mpr h)]

theorem qmax_eq (a b : ℚ) : qmax a b = max a b := by
  rcases lt_trichotomy a b with h | h | h
  · rw [qmax, if_pos (show Rat.blt a b = true from h), max_eq_right h.le]
  · subst h
    rw [qmax, max_self]
    split <;> rfl
  · rw [qmax, if_neg (show ¬ Rat.blt a b = true from not_lt.mpr h.le),
      max_eq_left h.le]

theorem qnat_eq (n : ℕ) : qnat n = (n : ℚ) := by
  rw [qnat]
  rw [Rat.divInt_one]
  norm_num

theorem lexLe_total (a b : List Char) : lexLe a b = true ∨ lexLe b a = true := by
  induction a generalizing b with
  | nil => left; rfl
  | cons x xs ih =>
    cases b with
    | nil => right; rfl
    | cons y ys =>
      rcases lt_trichotomy x y with h | h | h
      · left
        simp [lexLe, h]
      · subst h
        rcases ih ys with h2 | h2
        · left
          simp [lexLe, lt_irrefl, h2]
        · right
          simp [lexLe, lt_irrefl, h2]
      · right
        simp [lexLe, h]

theorem lexLe_trans {a b c : List Char} (h1 : lexLe a b = true) (h2 : lexLe b c = true) :
    lexLe a c = true := by
  induction a generalizing b c with
  | nil => rfl
  | cons x xs ih =>
    cases b with
    | nil => simp [lexLe] at h1
    | cons y ys =>
      cases c with
      | nil => simp [lexLe] at h2
      | cons z zs =>
        simp only [lexLe] at h1 h2 ⊢
        rcases lt_trichotomy x y with hxy | hxy | hxy
        · rcases lt_trichotomy y z with hyz | hyz | hyz
          · simp [hxy.trans hyz]
          · subst hyz
            simp [hxy]
          · rw [if_neg (by exact not_lt.mpr hyz.le), if_pos hyz] at h2
            exact absurd h2 (by simp)
        · subst hxy
          rcases lt_trichotomy x z with hyz | hyz | hyz
          · simp [hyz]
          · subst hyz
            rw [if_neg (lt_irrefl x), if_neg (lt_irrefl x)] at h1 h2 ⊢
            exact ih h1 h2
          · rw [if_neg (by exact not_lt.mpr hyz.le), if_pos hyz] at h2
            exact absurd h2 (by simp)
        · rw [if_neg (by exact not_lt.mpr hxy.le), if_pos hxy] at h1
          exact absurd h1 (by simp)

theorem lexLe_antisymm {a b : List Char} (h1 : lexLe a b = true) (h2 : lexLe b a = true) :
    a = b := by
  induction a generalizing b with
  | nil =>
    cases b with
    | nil => rfl
    | cons y ys => simp [lexLe] at h2
  | cons x xs ih =>
    cases b with
    | nil => simp [lexLe] at h1
    | cons y ys =>
      simp only [lexLe] at h1 h2
      rcases lt_trichotomy x y with hxy | hxy | hxy
      · rw [if_neg (by exact not_lt.mpr hxy.le), if_pos hxy] at h2
        exact absurd h2 (by simp)
      · subst hxy
        rw [if_neg (lt_irrefl x), if_neg (lt_irrefl x)] at h1 h2
        rw [ih h1 h2]
      · rw [if_neg (by exact not_lt.mpr hxy.le), if_pos hxy] at h1
        exact absurd h1 (by simp)

theorem strLe_total (a b : String) : strLe a b = true ∨ strLe b a = true :=
  lexLe_total a.data b.data

theorem strLe_trans {a b c : String} (h1 : strLe a b = true) (h2 : strLe b c = true) :
    strLe a c = true :=
  lexLe_trans h1 h2

theorem strLe_antisymm {a b : String} (h1 : strLe a b = true) (h2 : strLe b a = true) :
    a = b :=
  String.ext (lexLe_antisymm h1 h2)

theorem insertBy_perm {α : Type} (le : α → α → Bool) (x : α) (l : List α) :
    (insertBy le x l).Perm (x :: l) := by
  induction l with
  | nil => exact List.Perm.refl _
  | cons y ys ih =>
    rw [insertBy]
    split
    · exact List.Perm.refl _
    · exact (ih.cons y).trans (List.Perm.swap x y ys)

theorem sortBy_perm {α : Type} (le : α → α → Bool) (l : List α) :
    (sortBy le l).Perm l := by
  induction l with
  | nil => exact List.Perm.refl _
  | cons x xs ih =>
    exact (insertBy_perm le x (sortBy le xs)).trans (ih.cons x)

theorem insertBy_pairwise {α : Type} (le : α → α → Bool)
    (htot : ∀ a b, le a b = true ∨ le b a = true)
    (htrans : ∀ a b c, le a b = true → le b c = true → le a c = true)
    (x : α) (l : List α) (hl : l.Pairwise (fun a b => le a b = true)) :
    (insertBy le x l).Pairwise (fun a b => le a b = true) := by
  induction l with
  | nil => simp [insertBy]
  | cons y ys ih =>
    rw [insertBy]
    rcases List.pairwise_cons.mp hl with ⟨hy, hys⟩
    split
    · rename_i hxy
      refine List.pairwise_cons.mpr ⟨?_, hl⟩
      intro z hz
      rcases List.mem_cons.mp hz with hz | hz
      · subst hz
        exact hxy
      · exact htrans x y z hxy (hy z hz)
    · rename_i hxy
      have hyx : le y x = true := by
        rcases htot x y with h | h
        · exact absurd h hxy
        · exact h
      refine List.pairwise_cons.mpr ⟨?_, ih hys⟩
      intro z hz
      have hz2 := (insertBy_perm le x ys).mem_iff.mp hz
      rcases List.mem_cons.mp hz2 with hz3 | hz3
      · subst hz3
        exact hyx
      · exact hy z hz3

theorem sortBy_pairwise {α : Type} (le : α → α → Bool)
    (htot : ∀ a b, le a b = true ∨ le b a = true)
    (htrans : ∀ a b c, le a b = true → le b c = true → le a c = true)
    (l : List α) :
    (sortBy le l).Pairwise (fun a b => le a b = true) := by
  induction l with
  | nil => simp [sortBy]
  | cons x xs ih => exact insertBy_pairwise le htot htrans x (sortBy le xs) ih

/-- Two lists sorted under a relation that is antisymmetric on their elements
and related by a permutation are equal. -/
theorem pairwise_perm_eq {α : Type} {R : α → α → Prop} :
    ∀ {l1 l2 : List α}, l1.Perm l2 →
      l1.Pairwise R → l2.Pairwise R →
      (∀ a ∈ l1, ∀ b ∈ l1, R a b → R b a → a = b) → l1 = l2 := by
  intro l1
  induction l1 with
  | nil =>
    intro l2 hp _ _ _
    exact (List.Perm.nil_eq hp).symm ▸ rfl
  | cons x xs ih =>
    intro l2 hp h1 h2 hanti
    cases l2 with
    | nil => exact absurd hp.symm (by simp)
    | cons y ys =>
      rcases List.pairwise_cons.mp h1 with ⟨hx, hxs⟩
      rcases List.pairwise_cons.mp h2 with ⟨hy, hys⟩
      have hxy : x = y := by
        have hxmem : x ∈ y :: ys := hp.mem_iff.mp (List.mem_cons_self x xs)
        have hymem : y ∈ x :: xs := hp.symm.mem_iff.mp (List.mem_cons_self y ys)
        rcases List.mem_cons.mp hxmem with h | h
        · exact h
        · rcases List.mem_cons.mp hymem with h2' | h2'
          · exact h2'.symm
          · exact hanti x (List.mem_cons_self x xs) y
              (hp.symm.mem_iff.mp (List.mem_cons_self y ys)) (hx y h2') (hy x h)
      subst hxy
      have htail : xs.Perm ys := (List.perm_cons x).mp hp
      rw [ih htail hxs hys ?_]
      intro a ha b hb
      exact hanti a (List.mem_cons_of_mem x ha) b (List.mem_cons_of_mem x hb)

theorem keyLe_total {α : Type} (a b : String × α) :
    keyLe a b = true ∨ keyLe b a = true := strLe_total a.1 b.1

theorem keyLe_trans {α : Type} (a b c : String × α)
    (h1 : keyLe a b = true) (h2 : keyLe b c = true) : keyLe a c = true :=
  strLe_trans h1 h2

theorem sortPairs_perm {α : Type} (l : List (String × α)) :
    (sortPairs l).Perm l := sortBy_perm keyLe l

theorem sortPairs_pairwise {α : Type} (l : List (String × α)) :
    (sortPairs l).Pairwise (fun a b => keyLe a b = true) :=
  sortBy_pairwise keyLe keyLe_total keyLe_trans l

/-- In a list whose keys are distinct, an element is determined by its key. -/
theorem eq_of_fst_eq_of_nodup {α : Type} :
    ∀ {l : List (String × α)}, (l.map Prod.fst).Nodup →
      ∀ {a b : String × α}, a ∈ l → b ∈ l → a.1 = b.1 → a = b := by
  intro l
  induction l with
  | nil =>
    intro _ a b ha _ _
    exact absurd ha (by simp)
  | cons x xs ih =>
    intro hnd a b ha hb hfst
    rw [List.map_cons, List.nodup_cons] at hnd
    rcases List.mem_cons.mp ha with ha1 | ha1 <;>
      rcases List.mem_cons.mp hb with hb1 | hb1
    · rw [ha1, hb1]
    · subst ha1
      exact absurd (hfst ▸ List.mem_map_of_mem Prod.fst hb1) hnd.1
    · subst hb1
      exact absurd (hfst ▸ List.mem_map_of_mem Prod.fst ha1) hnd.1
    · exact ih hnd.2 ha1 hb1 hfst

/-- Sorting by keys is a function of the underlying key-value set: two
permuted association lists with distinct keys sort identically. -/
theorem sortPairs_eq_of_perm {α : Type} {l1 l2 : List (String × α)}
    (h : l1.Perm l2) (hnd : (l1.map Prod.fst).Nodup) :
    sortPairs l1 = sortPairs l2 := by
  refine pairwise_perm_eq
    (((sortPairs_perm l1).trans h).trans (sortPairs_perm l2).symm)
    (sortPairs_pairwise l1) (sortPairs_pairwise l2) ?_
  intro a ha b hb hab hba
  have hmem1 : a ∈ l1 := (sortPairs_perm l1).mem_iff.mp ha
  have hmem2 : b ∈ l1 := (sortPairs_perm l1).mem_iff.mp hb
  exact eq_of_fst_eq_of_nodup hnd hmem1 hmem2 (strLe_antisymm hab hba)

/-- Sorting by key commutes with mapping over the values. -/
theorem sortPairs_map_snd {α β : Type} (g : α → β) :
    ∀ l : List (String × α),
      sortPairs (l.map (fun p => (p.1, g p.2)))
        = (sortPairs l).map (fun p => (p.1, g p.2)) := by
  have hins : ∀ (x : String × α) (l : List (String × α)),
      insertBy keyLe (x.1, g x.2) (l.map (fun p => (p.1, g p.2)))
        = (insertBy keyLe x l).map (fun p => (p.1, g p.2)) := by
    intro x l
    induction l with
    | nil => rfl
    | cons y ys ih =>
      simp only [List.map_cons, insertBy]
      by_cases h : keyLe x y = true
      · rw [if_pos h, if_pos (show keyLe (x.1, g x.2) (y.1, g y.2) = true from h)]
        rfl
      · rw [if_neg h, if_neg (show ¬ keyLe (x.1, g x.2) (y.1, g y.2) = true from h)]
        rw [List.map_cons, ih]
  intro l
  induction l with
  | nil => rfl
  | cons x xs ih =>
    simp only [List.map_cons, sortPairs, sortBy] at ih ⊢
    rw [ih]
    exact hins x (sortBy keyLe xs)

theorem relTol_eq : relTol = 1 / 10 ^ 9 := by
  rw [relTol, Rat.divInt_eq_div]
  norm_num

theorem absTol_eq : absTol = 1 / 10 ^ 12 := by
  rw [absTol, Rat.divInt_eq_div]
  norm_num

theorem isclose_iff (a b : ℚ) :
    isclose a b = true
      ↔ |a - b| ≤ max ((1 / 10 ^ 9 : ℚ) * max |a| |b|) (1 / 10 ^ 12) := by
  simp only [isclose, qle_iff, qsub_eq, qmul_eq, qmax_eq, qabs_eq,
    relTol_eq, absTol_eq]

/-! ## Claim C3: commitment round-trip -/

/-- C3: for every mapping `m`, if `commit_map(m)` returns `(digest, nonce)`,
then `verify_commit(digest, open_map(m, nonce))` returns true. -/
theorem commit_roundtrip (H : String → String) (J : CJson → String)
    (mapping : List (String × Option ℚ)) (nonce : String) :
    verify_commit H J (commit_map H J mapping nonce).1 (open_map mapping nonce) = true := by
  simp [verify_commit, commit_map, open_map]

/-! ## Claim C7: tolerance-zero vs exact satisfaction -/

/-- C7 (amended): `eval_constraint(c, w)` is zero within tolerance iff the
residual's absolute value is at most the absolute tolerance `1e-12`; exact
satisfaction `A(w)·B(w) = C(w)` implies tolerance-zero, but the converse
fails (see the counterexample). -/
theorem eval_constraint_tolerance (constraint : Constraint)
    (assignment : List (String × ℚ)) :
    (isclose (eval_constraint constraint assignment) 0 = true
      ↔ |eval_constraint constraint assignment| ≤ 1 / 10 ^ 12)
    ∧ (qmul (eval_linear_form constraint.A assignment)
          (eval_linear_form constraint.B assignment)
        = eval_linear_form constraint.C assignment →
      isclose (eval_constraint constraint assignment) 0 = true) := by
  constructor
  · rw [isclose_iff]
    have habs : 0 ≤ |eval_constraint constraint assignment| := abs_nonneg _
    simp only [sub_zero, abs_zero, max_eq_left habs]
    constructor
    · intro h
      rcases le_max_iff.mp h with h1 | h1
      · linarith
      · exact h1
    · intro h
      exact le_max_iff.mpr (Or.inr h)
  · intro h
    have hz : eval_constraint constraint assignment = 0 := by
      rw [eval_constraint, qsub_eq, h, sub_self]
    rw [hz]
    decide

/-- C7 counterexample: a constraint with the single coefficient `1e-13` and
witness value 1 has residual `1e-13`, which `isclose` classifies as zero
(it is below the `1e-12` absolute tolerance) although `A(w)·B(w)` does not
equal `C(w)` exactly, refuting the claimed "iff ... exactly". -/
theorem eval_constraint_tolerance_counterexample :
    isclose (eval_constraint toleranceConstraint toleranceWitness) 0 = true
    ∧ qmul (eval_linear_form toleranceConstraint.A toleranceWitness)
          (eval_linear_form toleranceConstraint.B toleranceWitness)
        ≠ eval_linear_form toleranceConstraint.C toleranceWitness := by
  decide

/-! ## Claim C8: fingerprint order invariance -/

/-- C8: `fingerprint_constraint` is unchanged under reordering of the entries
of A, B and C (dict iteration order): two constraints with the same
(variable, coefficient) pairs in each part and the same source have equal
fingerprints. -/
theorem fingerprint_order_invariant (H : String → String) (fmt : ℚ → String)
    (c1 c2 : Constraint)
    (hA : c1.A.Perm c2.A) (hB : c1.B.Perm c2.B) (hC : c1.C.Perm c2.C)
    (hndA : (c1.A.map Prod.fst).Nodup) (hndB : (c1.B.map Prod.fst).Nodup)
    (hndC : (c1.C.map Prod.fst).Nodup)
    (hsrc : c1.source = c2.source) :
    fingerprint_constraint H fmt c1 = fingerprint_constraint H fmt c2 := by
  have eqA := sortPairs_eq_of_perm hA hndA
  have eqB := sortPairs_eq_of_perm hB hndB
  have eqC := sortPairs_eq_of_perm hC hndC
  simp only [fingerprint_constraint, normalize_constraint_representation,
    normalize_part, eqA, eqB, eqC, hsrc]

/-- C8 witness: concrete permuted two-entry linear forms fingerprint equally. -/
theorem fingerprint_order_invariant_witness :
    fingerprint_constraint (fun s => s) (fun _ => ("q"))
        ⟨[(("a"), 1), (("b"), 2)], [(("c"), 3)], [], ("s")⟩
      = fingerprint_constraint (fun s => s) (fun _ => ("q"))
        ⟨[(("b"), 2), (("a"), 1)], [(("c"), 3)], [], ("s")⟩ :=
  fingerprint_order_invariant (fun s => s) (fun _ => ("q")) _ _
    (by decide) (by decide) (by decide) (by decide) (by decide) (by decide) rfl

/-! ## Claim C1: overall acceptance condition -/

theorem checkEntry_snd_iff (H : String → String) (J : CJson → String)
    (wtop : Option String) (cs : List Constraint) (e : VEntry) :
    (checkEntry H J wtop cs e).2 = true
      ↔ ((checkEntry H J wtop cs e).1.residual_ok = some true
          ∧ (checkEntry H J wtop cs e).1.opening_ok ≠ some false) := by
  rcases e with ⟨idx, residual, opening, source⟩
  cases opening with
  | none =>
    cases hr : isclose residual 0 <;> simp [checkEntry, hr]
  | some op =>
    cases idx with
    | none =>
      cases wtop with
      | none => simp [checkEntry]
      | some d =>
        cases hd : (d == "") <;> simp [checkEntry, hd]
    | some i =>
      by_cases hb : i < 0 ∨ (cs.length : ℤ) ≤ i
      · cases wtop with
        | none => simp [checkEntry, hb]
        | some d =>
          cases hd : (d == "") <;> simp [checkEntry, hb, hd]
      · cases wtop with
        | none => simp [checkEntry, hb]
        | some d =>
          cases hd : (d == "")
          · cases hv : verify_commit H J d op <;>
              cases hr : isclose (qsub (qmul (eval_linear_opt (cs.getD i.toNat emptyConstraint).A op.mapping) (eval_linear_opt (cs.getD i.toNat emptyConstraint).B op.mapping)) (eval_linear_opt (cs.getD i.toNat emptyConstraint).C op.mapping)) residual <;>
              simp [checkEntry, hb, hd, hv, hr]
          · simp [checkEntry, hb, hd]

/-- C1: when the transcript digest validates, `Verifier.verify` accepts iff
every row of the report has `residual_ok = true` and no row has
`opening_ok` explicitly `false` (a `null` `opening_ok` does not block
acceptance); when the digest does not validate it returns
`(false, report)` with `digest_ok = false` and no per-entry rows. -/
theorem verify_accept_iff (H : String → String) (J : CJson → String)
    (r : R1CS) (t : Transcript) :
    (validate_transcript_digest H J t = false →
      Verifier.verify H J r t = (false, ⟨false, []⟩))
    ∧ (validate_transcript_digest H J t = true →
      ((Verifier.verify H J r t).1 = true
        ↔ ∀ er ∈ (Verifier.verify H J r t).2.residual_checks,
            er.residual_ok = some true ∧ er.opening_ok ≠ some false)) := by
  constructor
  · intro hv
    simp [Verifier.verify, hv]
  · intro hv
    simp only [Verifier.verify, hv, if_true, List.map_map, List.all_eq_true,
      List.mem_map, Function.comp_def]
    constructor
    · intro hall er her
      rcases her with ⟨e, he, rfl⟩
      exact (checkEntry_snd_iff H J _ _ e).mp (hall _ ⟨e, he, rfl⟩)
    · intro hall b hb
      rcases hb with ⟨e, he, rfl⟩
      exact (checkEntry_snd_iff H J _ _ e).mpr (hall _ ⟨e, he, rfl⟩)

/-- C1 witness: a digest-valid transcript with one satisfied null-opening
entry is accepted via the acceptance characterization. -/
theorem verify_accept_iff_witness :
    (Verifier.verify (fun _ => ("d")) (fun _ => ("s")) ⟨[], []⟩
        ⟨[], [⟨some 0, 0, none, ("")⟩], [], ("d")⟩).1 = true :=
  ((verify_accept_iff (fun _ => ("d")) (fun _ => ("s")) ⟨[], []⟩
      ⟨[], [⟨some 0, 0, none, ("")⟩], [], ("d")⟩).2 (by decide)).mpr (by decide)

/-! ## Claim C10: null-opening entries are never bounds-checked -/

/-- C10: in a digest-valid transcript in which every violation entry has a
null opening, the verifier's per-entry report depends only on the claimed
residual — `residual_ok = isclose(residual, 0)`, with no constraint lookup —
and the transcript is accepted iff every claimed residual is within
tolerance of zero, regardless of the entries' `idx` values (negative,
out-of-range or missing) and of the R1CS. -/
theorem null_opening_never_bounds_checked (H : String → String) (J : CJson → String)
    (r : R1CS) (t : Transcript)
    (hv : validate_transcript_digest H J t = true)
    (hall : ∀ e ∈ t.violations, e.opening = none) :
    (Verifier.verify H J r t).2.residual_checks
        = t.violations.map
            (fun e => ⟨e.idx, e.source, none, some (isclose e.residual 0), none⟩)
    ∧ ((Verifier.verify H J r t).1 = true
        ↔ ∀ e ∈ t.violations, isclose e.residual 0 = true) := by
  have hce : ∀ e ∈ t.violations,
      checkEntry H J (t.witness_commitments.lookup ("WITNESS")) r.constraints e
        = (⟨e.idx, e.source, none, some (isclose e.residual 0), none⟩,
            isclose e.residual 0) := by
    intro e he
    rcases e with ⟨idx, residual, opening, source⟩
    have hop := hall _ he
    simp only at hop
    subst hop
    rfl
  constructor
  · simp only [Verifier.verify, hv, if_true, List.map_map, Function.comp_def]
    exact List.map_congr_left (fun e he => by rw [hce e he])
  · simp only [Verifier.verify, hv, if_true, List.map_map, List.all_eq_true,
      List.mem_map, Function.comp_def]
    constructor
    · intro hacc e he
      have := hacc _ ⟨e, he, rfl⟩
      rwa [hce e he] at this
    · intro hres b hb
      rcases hb with ⟨e, he, rfl⟩
      rw [hce e he]
      exact hres e he

/-- C10 witness: a transcript whose only entries have null openings, zero
residuals and out-of-range/missing indices is accepted against an R1CS with
no constraints. -/
theorem null_opening_never_bounds_checked_witness :
    (Verifier.verify (fun _ => ("d")) (fun _ => ("s")) ⟨[], []⟩
        ⟨[], [⟨some (-3), 0, none, ("")⟩, ⟨none, 0, none, ("")⟩], [], ("d")⟩).1 = true :=
  ((null_opening_never_bounds_checked (fun _ => ("d")) (fun _ => ("s")) ⟨[], []⟩
      ⟨[], [⟨some (-3), 0, none, ("")⟩, ⟨none, 0, none, ("")⟩], [], ("d")⟩
      (by decide) (by decide)).2).mpr (by decide)

/-! ## Claims C5/C6: prover entry construction and out-of-range handling -/

theorem lookup_append {α : Type} [BEq α] {β : Type} (a : α) :
    ∀ l1 l2 : List (α × β),
      List.lookup a (l1 ++ l2) = (List.lookup a l1).or (List.lookup a l2) := by
  intro l1 l2
  induction l1 with
  | nil => rfl
  | cons x xs ih =>
    rw [List.cons_append, List.lookup, List.lookup]
    cases a == x.1
    · simpa using ih
    · rfl

theorem ensureOne_has_one (w : List (String × ℚ)) :
    ((ensureOne w).lookup ("ONE")).isSome = true := by
  rw [ensureOne]
  split
  · rename_i h
    exact h
  · rw [lookup_append]
    rename_i h
    rw [Bool.not_eq_true] at h
    cases hl : List.lookup ("ONE") w
    · rfl
    · rw [hl] at h
      simp at h

theorem ensureOne_idem (w : List (String × ℚ)) :
    ensureOne (ensureOne w) = ensureOne w := by
  rw [ensureOne, if_pos (ensureOne_has_one w)]

theorem filterMap_length_eq_filter {α β : Type} (f : α → Option β) (p : α → Bool)
    (h : ∀ a, (f a).isSome = p a) :
    ∀ l : List α, (l.filterMap f).length = (l.filter p).length := by
  intro l
  induction l with
  | nil => rfl
  | cons a as ih =>
    rw [List.filterMap_cons, List.filter_cons]
    have hpa := h a
    cases hfa : f a with
    | none =>
      rw [hfa] at hpa
      rw [if_neg (by rw [← hpa]; simp)]
      exact ih
    | some b =>
      rw [hfa] at hpa
      rw [if_pos (by rw [← hpa]; simp)]
      rw [List.length_cons, ih, List.length_cons]

theorem make_proof_entries_def (nW : String) (r : R1CS)
    (w : List (String × ℚ)) (cands : List ℤ) :
    Prover.make_proof_entries nW r w cands
      = cands.filterMap (fun idx =>
          if idx < 0 ∨ (r.constraints.length : ℤ) ≤ idx then none
          else
            let c := r.constraints.getD idx.toNat emptyConstraint
            let residual := eval_constraint c (ensureOne w)
            if isclose residual 0 then
              some ⟨some idx, 0, none, c.source⟩
            else
              some ⟨some idx, residual,
                some (open_map ((constraint_support c).map
                  (fun v => (v, (ensureOne w).lookup v))) nW), c.source⟩) := rfl

/-- C6 (amended): the entry loop of `make_proof` silently skips out-of-range
candidate indices — every entry it builds carries an in-range index and
exactly the in-range candidates produce entries — but `make_proof` itself
then unconditionally raises `NameError` at the transcript-assembly line
(prover.py line 124 evaluates the undefined name `witness_commitments`), so
no transcript is ever returned; the verifier fails a transcript entry *that
carries an opening* when its `idx` is missing or out of range
(`residual_ok = false`, `computed_residual = null`), rejecting overall while
still reporting one row per entry.  (The original claim's unqualified
verifier half is refuted by the counterexample — a null-opening entry is
never bounds-checked — and its prover half wrongly asserts that `make_proof`
raises no error.) -/
theorem out_of_range_handling :
    (∀ (nW : String) (r : R1CS) (w : List (String × ℚ)) (cands : List ℤ),
      (∀ e ∈ Prover.make_proof_entries nW r w cands,
        ∃ i : ℤ, e.idx = some i ∧ 0 ≤ i ∧ i < (r.constraints.length : ℤ))
      ∧ (Prover.make_proof_entries nW r w cands).length
          = (cands.filter
              (fun i => decide (¬(i < 0 ∨ (r.constraints.length : ℤ) ≤ i)))).length)
    ∧ (∀ (H : String → String) (J : CJson → String) (nW : String)
        (pvn : String → String) (r : R1CS) (w : List (String × ℚ)) (cands : List ℤ),
      Prover.make_proof H J nW pvn r w cands = Except.error nameErrorMsg)
    ∧ (∀ (H : String → String) (J : CJson → String) (r : R1CS) (t : Transcript)
        (e : VEntry) (op : Opening),
      validate_transcript_digest H J t = true →
      e ∈ t.violations → e.opening = some op →
      (∀ i : ℤ, e.idx = some i → (i < 0 ∨ (r.constraints.length : ℤ) ≤ i)) →
      ((Verifier.verify H J r t).1 = false
        ∧ (checkEntry H J (t.witness_commitments.lookup ("WITNESS"))
            r.constraints e).1.residual_ok = some false
        ∧ (checkEntry H J (t.witness_commitments.lookup ("WITNESS"))
            r.constraints e).1.computed_residual = none
        ∧ (checkEntry H J (t.witness_commitments.lookup ("WITNESS"))
            r.constraints e).1 ∈ (Verifier.verify H J r t).2.residual_checks
        ∧ (Verifier.verify H J r t).2.residual_checks.length = t.violations.length)) := by
  refine ⟨?_, fun H J nW pvn r w cands => rfl, ?_⟩
  · intro nW r w cands
    constructor
    · intro e he
      rw [make_proof_entries_def] at he
      rcases List.mem_filterMap.mp he with ⟨i, hi, hf⟩
      by_cases hb : i < 0 ∨ (r.constraints.length : ℤ) ≤ i
      · rw [if_pos hb] at hf
        exact absurd hf (by simp)
      · push_neg at hb
        refine ⟨i, ?_, hb.1, hb.2⟩
        rw [if_neg (by push_neg; exact hb)] at hf
        by_cases hz : isclose
            (eval_constraint (r.constraints.getD i.toNat emptyConstraint) (ensureOne w)) 0
            = true
        · simp only [hz, if_true] at hf
          cases Option.some.inj hf
          rfl
        · simp only [Bool.not_eq_true] at hz
          simp only [hz, Bool.false_eq_true, if_false] at hf
          cases Option.some.inj hf
          rfl
    · rw [make_proof_entries_def]
      refine filterMap_length_eq_filter _ _ ?_ cands
      intro a
      by_cases hb : a < 0 ∨ (r.constraints.length : ℤ) ≤ a
      · rw [if_pos hb]
        simp [hb]
      · rw [if_neg hb]
        by_cases hz : isclose
            (eval_constraint (r.constraints.getD a.toNat emptyConstraint) (ensureOne w)) 0
            = true
        · simp only [hz, if_true]
          simp [hb]
        · simp only [Bool.not_eq_true] at hz
          simp only [hz, Bool.false_eq_true, if_false]
          simp [hb]
  · intro H J r t e op hv he hop hOOR
    have hch : (checkEntry H J (t.witness_commitments.lookup ("WITNESS"))
          r.constraints e).1.residual_ok = some false
        ∧ (checkEntry H J (t.witness_commitments.lookup ("WITNESS"))
            r.constraints e).1.computed_residual = none
        ∧ (checkEntry H J (t.witness_commitments.lookup ("WITNESS"))
            r.constraints e).2 = false := by
      rcases e with ⟨idx, residual, opening, source⟩
      obtain rfl : opening = some op := hop
      cases idx with
      | none => exact ⟨rfl, rfl, rfl⟩
      | some i =>
        have hb : i < 0 ∨ (r.constraints.length : ℤ) ≤ i := hOOR i rfl
        refine ⟨?_, ?_, ?_⟩ <;> simp [checkEntry, hb]
    refine ⟨?_, hch.1, hch.2.1, ?_, ?_⟩
    · simp only [Verifier.verify, hv, if_true]
      rw [Bool.eq_false_iff]
      intro hall
      rw [List.all_eq_true] at hall
      have hmem := hall _ (List.mem_map_of_mem Prod.snd
        (List.mem_map_of_mem (checkEntry H J (t.witness_commitments.lookup ("WITNESS"))
          r.constraints) he))
      rw [hch.2.2] at hmem
      exact absurd hmem (by simp)
    · simp only [Verifier.verify, hv, if_true]
      exact List.mem_map_of_mem Prod.fst
        (List.mem_map_of_mem (checkEntry H J (t.witness_commitments.lookup ("WITNESS"))
          r.constraints) he)
    · simp [Verifier.verify, hv]

/-- C6 counterexample: an out-of-range entry (idx 5 against a one-constraint
R1CS) whose opening is null is not marked failed: the transcript is accepted
with `residual_ok = true`, refuting the claim's unqualified "verifier marks
a transcript entry whose idx is out of range as failed, causing overall
rejection". -/
theorem out_of_range_handling_counterexample :
    Verifier.verify (fun _ => ("d")) (fun _ => ("s"))
        ⟨[], [⟨[(("x"), 1)], [(("y"), 1)], [(("z"), 1)], ("src")⟩]⟩
        ⟨[], [⟨some 5, 0, none, ("")⟩], [], ("d")⟩
      = (true, ⟨true, [⟨some 5, (""), none, some true, none⟩]⟩) := by
  decide

/-- C6 witness: out-of-range candidates [-1, 5] produce no loop entries, and
a verifier entry with an opening and out-of-range idx 9 causes rejection. -/
theorem out_of_range_handling_witness :
    (∀ e ∈ Prover.make_proof_entries ("n")
        ⟨[], [⟨[(("x"), 1)], [(("y"), 1)], [(("z"), 1)], ("src")⟩]⟩ [] [-1, 5],
      ∃ i : ℤ, e.idx = some i ∧ 0 ≤ i
        ∧ i < ((⟨[], [⟨[(("x"), 1)], [(("y"), 1)], [(("z"), 1)], ("src")⟩]⟩ :
            R1CS).constraints.length : ℤ))
    ∧ (Verifier.verify (fun _ => ("d")) (fun _ => ("s"))
        ⟨[], [⟨[(("x"), 1)], [(("y"), 1)], [(("z"), 1)], ("src")⟩]⟩
        ⟨[], [⟨some 9, 1, some ⟨[], ("n")⟩, ("")⟩], [], ("d")⟩).1 = false :=
  ⟨(out_of_range_handling.1 ("n")
      ⟨[], [⟨[(("x"), 1)], [(("y"), 1)], [(("z"), 1)], ("src")⟩]⟩ [] [-1, 5]).1,
    (out_of_range_handling.2.2 (fun _ => ("d")) (fun _ => ("s"))
      ⟨[], [⟨[(("x"), 1)], [(("y"), 1)], [(("z"), 1)], ("src")⟩]⟩
      ⟨[], [⟨some 9, 1, some ⟨[], ("n")⟩, ("")⟩], [], ("d")⟩
      ⟨some 9, 1, some ⟨[], ("n")⟩, ("")⟩ ⟨[], ("n")⟩
      (by decide) (by decide) rfl
      (fun i hi => Option.some.inj hi ▸ (by decide))).1⟩

/-- C5 (code bug): the entry construction the claim describes is what the
loop builds, but `Prover.make_proof` never returns it: every call, on all
inputs, evaluates the undefined name `witness_commitments` at prover.py
line 124 (the local binding is `witness_commits`) and raises `NameError`
instead of returning a transcript. -/
theorem make_proof_always_raises (H : String → String) (J : CJson → String)
    (nW : String) (pvn : String → String) (r : R1CS)
    (w : List (String × ℚ)) (cands : List ℤ) :
    Prover.make_proof H J nW pvn r w cands = Except.error nameErrorMsg := rfl

/-! ## Claim C4: transcript tamper evidence -/

theorem sorted_value_map_inj {α : Type} (g : α → CJson)
    (hg : ∀ x y, g x = g y → x = y) {l1 l2 : List (String × α)}
    (h : sortPairs (l1.map (fun p => (p.1, g p.2)))
        = sortPairs (l2.map (fun p => (p.1, g p.2)))) :
    sortPairs l1 = sortPairs l2 := by
  rw [sortPairs_map_snd, sortPairs_map_snd] at h
  have hinj : Function.Injective (fun p : String × α => (p.1, g p.2)) := by
    intro x y hxy
    rw [Prod.mk.injEq] at hxy
    exact Prod.ext hxy.1 (hg x.2 y.2 hxy.2)
  exact List.map_injective_iff.mpr hinj h

theorem metaJson_inj {m1 m2 : List (String × ℤ)} (h : metaJson m1 = metaJson m2) :
    sortPairs m1 = sortPairs m2 := by
  rw [metaJson, metaJson, CJson.obj.injEq] at h
  exact sorted_value_map_inj CJson.int (fun x y hxy => CJson.int.inj hxy) h

theorem wcJson_inj {w1 w2 : List (String × String)} (h : wcJson w1 = wcJson w2) :
    sortPairs w1 = sortPairs w2 := by
  rw [wcJson, wcJson, CJson.obj.injEq] at h
  exact sorted_value_map_inj CJson.str (fun x y hxy => CJson.str.inj hxy) h

theorem mapJson_inj {m1 m2 : List (String × Option ℚ)} (h : mapJson m1 = mapJson m2) :
    sortPairs m1 = sortPairs m2 := by
  rw [mapJson, mapJson, CJson.obj.injEq] at h
  refine sorted_value_map_inj optJson ?_ h
  intro x y hxy
  cases x with
  | none =>
    cases y with
    | none => rfl
    | some q => exact absurd hxy (by simp [optJson])
  | some p =>
    cases y with
    | none => exact absurd hxy (by simp [optJson])
    | some q =>
      simp only [optJson] at hxy
      rw [CJson.num.inj hxy]

theorem entryJson_inj (e1 e2 : VEntry) (h : entryJson e1 = entryJson e2) :
    canonEntry e1 = canonEntry e2 := by
  rcases e1 with ⟨i1, r1, o1, s1⟩
  rcases e2 with ⟨i2, r2, o2, s2⟩
  simp only [entryJson, CJson.obj.injEq, List.cons.injEq, Prod.mk.injEq, true_and,
    and_true] at h
  obtain ⟨hidx, hop, hres, hsrc⟩ := h
  have hi : i1 = i2 := by
    cases i1 with
    | none =>
      cases i2 with
      | none => rfl
      | some v => exact absurd hidx (by simp)
    | some v1 =>
      cases i2 with
      | none => exact absurd hidx (by simp)
      | some v2 => rw [CJson.int.inj hidx]
  have ho : o1.map canonOpening = o2.map canonOpening := by
    cases o1 with
    | none =>
      cases o2 with
      | none => rfl
      | some p2 => exact absurd hop (by simp)
    | some p1 =>
      cases o2 with
      | none => exact absurd hop (by simp)
      | some p2 =>
        simp only [CJson.obj.injEq, List.cons.injEq, Prod.mk.injEq, true_and,
          and_true] at hop
        have hm := mapJson_inj hop.1
        have hn := CJson.str.inj hop.2
        show some (canonOpening p1) = some (canonOpening p2)
        simp only [canonOpening]
        rw [hm, hn]
  simp only [canonEntry, VEntry.mk.injEq]
  exact ⟨hi, CJson.num.inj hres, ho, CJson.str.inj hsrc⟩

theorem map_eq_map_of_inj {α β γ : Type} (f : α → β) (g : α → γ)
    (hfg : ∀ a b, f a = f b → g a = g b) :
    ∀ {l1 l2 : List α}, l1.map f = l2.map f → l1.map g = l2.map g := by
  intro l1
  induction l1 with
  | nil =>
    intro l2 h
    cases l2 with
    | nil => rfl
    | cons b bs => exact absurd h (by simp)
  | cons a as ih =>
    intro l2 h
    cases l2 with
    | nil => exact absurd h (by simp)
    | cons b bs =>
      simp only [List.map_cons, List.cons.injEq] at h ⊢
      exact ⟨hfg a b h.1, ih h.2⟩

theorem txBodyJson_inj (wc1 : List (String × String)) (ve1 : List VEntry)
    (m1 : List (String × ℤ)) (wc2 : List (String × String)) (ve2 : List VEntry)
    (m2 : List (String × ℤ))
    (h : txBodyJson wc1 ve1 m1 = txBodyJson wc2 ve2 m2) :
    canonBody wc1 ve1 m1 = canonBody wc2 ve2 m2 := by
  simp only [txBodyJson, CJson.obj.injEq, List.cons.injEq, Prod.mk.injEq, true_and,
    and_true, CJson.arr.injEq] at h
  obtain ⟨hm, hv, hw⟩ := h
  simp only [canonBody, Prod.mk.injEq]
  exact ⟨wcJson_inj hw,
    map_eq_map_of_inj entryJson canonEntry entryJson_inj hv, metaJson_inj hm⟩

theorem validate_make_transcript (H : String → String) (J : CJson → String)
    (wc : List (String × String)) (ve : List VEntry) (meta : List (String × ℤ))
    (hne : H (J (txBodyJson wc ve meta)) ≠ "") :
    validate_transcript_digest H J (make_transcript H J wc ve meta) = true := by
  have h1 : ((make_transcript H J wc ve meta).digest == "") = false :=
    beq_eq_false_iff_ne.mpr hne
  rw [validate_transcript_digest, h1]
  simp [make_transcript]

/-- C4: a transcript freshly produced by `make_transcript` validates, and any
transcript carrying the same digest whose digest-stripped content differs as
a dict structure (a changed coefficient in an opening mapping, residual,
commitment digest, or meta entry — anything changing the canonical form)
fails `validate_transcript_digest`, provided the two canonical serializations
do not collide under the hash (the spec's collision-resistance assumption,
`hcoll`). -/
theorem transcript_tamper_evident (H : String → String) (J : CJson → String)
    (wc : List (String × String)) (ve : List VEntry) (meta : List (String × ℤ))
    (t2 : Transcript)
    (hne : H (J (txBodyJson wc ve meta)) ≠ "")
    (hdig : t2.digest = (make_transcript H J wc ve meta).digest)
    (hchange : canonBody t2.witness_commitments t2.violations t2.meta
        ≠ canonBody wc ve meta)
    (hcoll : H (J (txBodyJson t2.witness_commitments t2.violations t2.meta))
        = H (J (txBodyJson wc ve meta))
      → txBodyJson t2.witness_commitments t2.violations t2.meta
          = txBodyJson wc ve meta) :
    validate_transcript_digest H J (make_transcript H J wc ve meta) = true
    ∧ validate_transcript_digest H J t2 = false := by
  refine ⟨validate_make_transcript H J wc ve meta hne, ?_⟩
  by_cases hd : (t2.digest == "") = true
  · rw [validate_transcript_digest, hd]
    rfl
  · rw [validate_transcript_digest, Bool.not_eq_true] at *
    rw [hd]
    simp only [Bool.false_eq_true, if_false]
    rw [Bool.eq_false_iff]
    intro hbeq
    have heq : transcript_digest H J t2.witness_commitments t2.violations t2.meta
        = t2.digest := eq_of_beq hbeq
    rw [hdig] at heq
    have heq2 : H (J (txBodyJson t2.witness_commitments t2.violations t2.meta))
        = H (J (txBodyJson wc ve meta)) := heq
    exact hchange (txBodyJson_inj _ _ _ _ _ _ (hcoll heq2))

/-- C4 witness: a one-entry transcript validates, and the same transcript
with the entry's residual changed from 1 to 2 (digest kept) fails
validation. -/
theorem transcript_tamper_evident_witness :
    validate_transcript_digest tamperHash tamperJson
        (make_transcript tamperHash tamperJson [] [⟨some 0, 1, none, ("")⟩] []) = true
    ∧ validate_transcript_digest tamperHash tamperJson
        ⟨[], [⟨some 0, 2, none, ("")⟩], [],
          (make_transcript tamperHash tamperJson []
            [⟨some 0, 1, none, ("")⟩] []).digest⟩ = false :=
  transcript_tamper_evident tamperHash tamperJson [] [⟨some 0, 1, none, ("")⟩] []
    ⟨[], [⟨some 0, 2, none, ("")⟩], [],
      (make_transcript tamperHash tamperJson [] [⟨some 0, 1, none, ("")⟩] []).digest⟩
    (by decide) rfl (by decide) (fun hcol => absurd hcol (by decide))

/-! ## Claim C9: deduplication keeps the first occurrence -/

theorem contains_iff_mem {a : String} {l : List String} :
    l.contains a = true ↔ a ∈ l := List.elem_iff

theorem slice_fold_char (H : String → String) (fmt : ℚ → String) (lg : ℕ → ℚ) :
    ∀ (L : List (ℕ × Constraint)) (cs : List Candidate) (seen : List String),
      L.foldl (sliceStep H fmt lg true) (cs, seen)
        = (cs ++ (scanKept H fmt seen L).map (mkCandidate H fmt lg),
            seen ++ (scanKept H fmt seen L).map
              (fun p => fingerprint_constraint H fmt p.2)) := by
  intro L
  induction L with
  | nil =>
    intro cs seen
    simp [scanKept]
  | cons p ps ih =>
    intro cs seen
    rw [List.foldl_cons]
    by_cases hc : seen.contains (fingerprint_constraint H fmt p.2) = true
    · have hc2 : fingerprint_constraint H fmt p.2 ∈ seen := contains_iff_mem.mp hc
      rw [show sliceStep H fmt lg true (cs, seen) p = (cs, seen) from by
        simp [sliceStep, hc2]]
      rw [ih cs seen]
      simp only [scanKept]
      rw [if_pos hc]
    · have hc2 : fingerprint_constraint H fmt p.2 ∉ seen :=
        fun hmem => hc (contains_iff_mem.mpr hmem)
      rw [show sliceStep H fmt lg true (cs, seen) p
          = (cs ++ [mkCandidate H fmt lg p],
              seen ++ [fingerprint_constraint H fmt p.2]) from by
        simp [sliceStep, hc2, mkCandidate]]
      rw [ih]
      simp only [scanKept]
      rw [if_neg hc]
      simp [List.append_assoc]

theorem slice_r1cs_eq (H : String → String) (fmt : ℚ → String) (lg : ℕ → ℚ)
    (r : R1CS) (top_k : ℕ) :
    slice_r1cs H fmt lg r top_k true
      = (sortBy scoreDescLe
          ((scanKept H fmt [] r.constraints.enum).map (mkCandidate H fmt lg))).take top_k := by
  rw [slice_r1cs]
  rw [slice_fold_char H fmt lg r.constraints.enum [] []]
  simp

theorem scanKept_length (H : String → String) (fmt : ℚ → String) :
    ∀ (L : List (ℕ × Constraint)) (seen : List String),
      (scanKept H fmt seen L).length ≤ L.length := by
  intro L
  induction L with
  | nil => intro seen; simp [scanKept]
  | cons p ps ih =>
    intro seen
    simp only [scanKept]
    split
    · exact (ih seen).trans (by simp)
    · simpa using ih (seen ++ [fingerprint_constraint H fmt p.2])

theorem scanKept_first_at (H : String → String) (fmt : ℚ → String) :
    ∀ (L : List (ℕ × Constraint)) (seen : List String) (k : ℕ × Constraint),
      k ∈ scanKept H fmt seen L →
      ∃ n, L.get? n = some k
        ∧ fingerprint_constraint H fmt k.2 ∉ seen
        ∧ ∀ m < n, ∀ a : ℕ × Constraint, L.get? m = some a →
            fingerprint_constraint H fmt a.2 ≠ fingerprint_constraint H fmt k.2 := by
  intro L
  induction L with
  | nil =>
    intro seen k hk
    simp [scanKept] at hk
  | cons p ps ih =>
    intro seen k hk
    simp only [scanKept] at hk
    by_cases hc : seen.contains (fingerprint_constraint H fmt p.2) = true
    · rw [if_pos hc] at hk
      rcases ih seen k hk with ⟨n, hget, hnot, hbef⟩
      refine ⟨n + 1, hget, hnot, ?_⟩
      intro m hm a ha
      cases m with
      | zero =>
        have hap : p = a := by simpa using ha
        subst hap
        intro hfp
        rw [hfp] at hc
        exact hnot (contains_iff_mem.mp hc)
      | succ m2 =>
        exact hbef m2 (by omega) a (by simpa using ha)
    · rw [if_neg hc] at hk
      rcases List.mem_cons.mp hk with hk1 | hk1
      · subst hk1
        refine ⟨0, by simp, ?_, ?_⟩
        · intro hm
          exact hc (contains_iff_mem.mpr hm)
        · intro m hm
          exact absurd hm (Nat.not_lt_zero m)
      · rcases ih (seen ++ [fingerprint_constraint H fmt p.2]) k hk1
          with ⟨n, hget, hnot, hbef⟩
        refine ⟨n + 1, by simpa using hget, ?_, ?_⟩
        · intro hm
          exact hnot (List.mem_append.mpr (Or.inl hm))
        · intro m hm a ha
          cases m with
          | zero =>
            have hap : p = a := by simpa using ha
            subst hap
            intro hfp
            apply hnot
            refine List.mem_append.mpr (Or.inr ?_)
            rw [← hfp]
            exact List.mem_singleton_self _
          | succ m2 =>
            exact hbef m2 (by omega) a (by simpa using ha)

theorem scanKept_keep_at (H : String → String) (fmt : ℚ → String) :
    ∀ (L : List (ℕ × Constraint)) (seen : List String) (n : ℕ) (q : ℕ × Constraint),
      L.get? n = some q →
      fingerprint_constraint H fmt q.2 ∉ seen →
      (∀ m < n, ∀ a : ℕ × Constraint, L.get? m = some a →
          fingerprint_constraint H fmt a.2 ≠ fingerprint_constraint H fmt q.2) →
      q ∈ scanKept H fmt seen L := by
  intro L
  induction L with
  | nil =>
    intro seen n q h
    simp at h
  | cons p ps ih =>
    intro seen n q hget hseen hbef
    simp only [scanKept]
    cases n with
    | zero =>
      have hq : p = q := by simpa using hget
      subst hq
      rw [if_neg (fun hc => hseen (contains_iff_mem.mp hc))]
      exact List.mem_cons_self _ _
    | succ m =>
      have hget2 : ps.get? m = some q := by simpa using hget
      by_cases hc : seen.contains (fingerprint_constraint H fmt p.2) = true
      · rw [if_pos hc]
        exact ih seen m q hget2 hseen
          (fun m2 hm2 a ha => hbef (m2 + 1) (by omega) a (by simpa using ha))
      · rw [if_neg hc]
        refine List.mem_cons_of_mem _
          (ih (seen ++ [fingerprint_constraint H fmt p.2]) m q hget2 ?_
            (fun m2 hm2 a ha => hbef (m2 + 1) (by omega) a (by simpa using ha)))
        intro hmem
        rcases List.mem_append.mp hmem with hm1 | hm1
        · exact hseen hm1
        · exact hbef 0 (Nat.succ_pos m) p rfl (List.mem_singleton.mp hm1).symm

/-- C9 (amended): with `deduplicate = true`, a structurally identical later
copy `j` of an earlier constraint `i` is never in the output of
`slice_r1cs`; and index `i` is in the output provided `i` is the *first*
index bearing its fingerprint and `top_k` is at least the number of
constraints (the original claim omitted both provisos; the counterexample
shows the first one is necessary). -/
theorem slice_dedup_first_occurrence (H : String → String) (fmt : ℚ → String)
    (lg : ℕ → ℚ) (r : R1CS) (top_k : ℕ) (i j : ℕ)
    (hij : i < j) (hjlen : j < r.constraints.length)
    (heq : r.constraints.getD i emptyConstraint = r.constraints.getD j emptyConstraint) :
    (∀ cand ∈ slice_r1cs H fmt lg r top_k true, cand.idx ≠ j)
    ∧ ((∀ k0 < i, fingerprint_constraint H fmt (r.constraints.getD k0 emptyConstraint)
          ≠ fingerprint_constraint H fmt (r.constraints.getD i emptyConstraint)) →
        r.constraints.length ≤ top_k →
        ∃ cand ∈ slice_r1cs H fmt lg r top_k true, cand.idx = i) := by
  have hilen : i < r.constraints.length := hij.trans hjlen
  have hgetD : ∀ (m : ℕ) (hm : m < r.constraints.length),
      r.constraints.get? m = some (r.constraints.getD m emptyConstraint) := by
    intro m hm
    rw [List.get?_eq_get hm, List.getD_eq_get?, List.get?_eq_get hm]
    rfl
  have henum : ∀ (m : ℕ), m < r.constraints.length →
      r.constraints.enum.get? m = some (m, r.constraints.getD m emptyConstraint) := by
    intro m hm
    rw [List.get?_enum, hgetD m hm]
    rfl
  constructor
  · intro cand hcand hidx
    rw [slice_r1cs_eq] at hcand
    have h1 := List.mem_of_mem_take hcand
    have h2 := (sortBy_perm scoreDescLe _).mem_iff.mp h1
    rcases List.mem_map.mp h2 with ⟨q, hq, hcq⟩
    rcases scanKept_first_at H fmt _ _ _ hq with ⟨n, hget, _, hbef⟩
    have hqidx : q.1 = j := by
      rw [← hcq] at hidx
      exact hidx
    rw [List.get?_enum] at hget
    rcases Option.map_eq_some'.mp hget with ⟨c, hcn, hqc⟩
    have hnj : n = j := by
      rw [← hqc] at hqidx
      exact hqidx
    subst hnj
    have hq2 : q.2 = r.constraints.getD n emptyConstraint := by
      rw [← hqc]
      rw [hgetD n hjlen] at hcn
      simpa using hcn.symm
    have hfpeq := hbef i hij _ (henum i hilen)
    apply hfpeq
    rw [hq2, heq]
  · intro hfirst hlen
    refine ⟨mkCandidate H fmt lg (i, r.constraints.getD i emptyConstraint), ?_, rfl⟩
    rw [slice_r1cs_eq]
    have hkeep : (i, r.constraints.getD i emptyConstraint)
        ∈ scanKept H fmt [] r.constraints.enum := by
      refine scanKept_keep_at H fmt _ _ i _ (henum i hilen) (by simp) ?_
      intro m hm a ha
      rw [List.get?_enum] at ha
      rcases Option.map_eq_some'.mp ha with ⟨c, hcn, hac⟩
      have hmlen : m < r.constraints.length := hm.trans hilen
      rw [hgetD m hmlen] at hcn
      have ha2 : a.2 = r.constraints.getD m emptyConstraint := by
        rw [← hac]
        simpa using hcn.symm
      rw [ha2]
      exact hfirst m hm
    have hmem2 := List.mem_map_of_mem (mkCandidate H fmt lg) hkeep
    have hmem3 := (sortBy_perm scoreDescLe _).symm.mem_iff.mp hmem2
    have hlen2 : (sortBy scoreDescLe
        ((scanKept H fmt [] r.constraints.enum).map (mkCandidate H fmt lg))).length
        ≤ top_k := by
      rw [(sortBy_perm scoreDescLe _).length_eq, List.length_map]
      calc (scanKept H fmt [] r.constraints.enum).length
          ≤ r.constraints.enum.length := scanKept_length H fmt _ _
        _ = r.constraints.length := List.enum_length
        _ ≤ top_k := hlen
    rw [List.take_of_length_le hlen2]
    exact hmem3

/-- C9 counterexample: with three identical constraints at indices 0, 1, 2
the claim's hypotheses hold for (i, j) = (1, 2), yet the slice output is
exactly index 0 — index 1 is *not* retained, refuting "returns a candidate
list that contains index i". -/
theorem slice_dedup_counterexample :
    dupR1CS.constraints.getD 1 emptyConstraint = dupR1CS.constraints.getD 2 emptyConstraint
    ∧ (1 : ℕ) < 2 ∧ 2 < dupR1CS.constraints.length
    ∧ (slice_r1cs (fun s => s) (fun _ => ("q")) (fun _ => 0) dupR1CS 10 true).map
        (fun c => c.idx) = [0] := by
  refine ⟨rfl, by decide, by decide, ?_⟩
  decide

/-- C9 witness: for an R1CS with two identical constraints at indices 0 and 1,
the slice never contains index 1 and does contain index 0. -/
theorem slice_dedup_first_occurrence_witness :
    (∀ cand ∈ slice_r1cs (fun s => s) (fun _ => ("q")) (fun _ => 0)
        ⟨[], [dupConstraint, dupConstraint]⟩ 10 true, cand.idx ≠ 1)
    ∧ ∃ cand ∈ slice_r1cs (fun s => s) (fun _ => ("q")) (fun _ => 0)
        ⟨[], [dupConstraint, dupConstraint]⟩ 10 true, cand.idx = 0 :=
  ⟨(slice_dedup_first_occurrence (fun s => s) (fun _ => ("q")) (fun _ => 0)
      ⟨[], [dupConstraint, dupConstraint]⟩ 10 0 1 (by decide) (by decide) rfl).1,
    (slice_dedup_first_occurrence (fun s => s) (fun _ => ("q")) (fun _ => 0)
      ⟨[], [dupConstraint, dupConstraint]⟩ 10 0 1 (by decide) (by decide) rfl).2
      (fun k0 hk0 => absurd hk0 (Nat.not_lt_zero k0)) (by decide)⟩

/-! ## Claim C2: calibration Scenario A -/

/-- C2 (code bug): the Scenario A run the claim describes never happens.  On
the Scenario A R1CS, witness `{ONE:1, a:3, b:4, c:12}` and candidate indices
`[0, 1]`, `Prover.make_proof` raises `NameError` (prover.py line 124
evaluates the undefined name `witness_commitments`; the local is
`witness_commits`) and returns no transcript, so nothing reaches the
verifier — even though the entry loop has by then built exactly the entries
the claim (and spec section 8) describes: entry 0 with residual 0 and null
opening, entry 1 with residual 7 and an opening over `{ONE, a, b, d}` with
`d` disclosed as null and the WITNESS-level nonce. -/
theorem scenario_a_raises :
    Prover.make_proof (fun s => ("h") ++ s) (fun _ => ("j")) ("n") (fun v => v)
        scenarioR1CS scenarioWitness [0, 1] = Except.error nameErrorMsg
    ∧ Prover.make_proof_entries ("n") scenarioR1CS scenarioWitness [0, 1]
        = [⟨some 0, 0, none, ("c <== a * b;")⟩,
           ⟨some 1, 7,
             some ⟨[(("ONE"), some 1), (("a"), some 3), (("b"), some 4), (("d"), none)],
               ("n")⟩,
             ("d <== a + b;")⟩] :=
  ⟨rfl, rfl⟩

/-- C7 witness: Scenario A's constraint 0 is satisfied exactly under the
scenario witness, hence classified as zero within tolerance. -/
theorem eval_constraint_tolerance_witness :
    isclose (eval_constraint scenarioConstraint0 scenarioWitness) 0 = true :=
  (eval_constraint_tolerance scenarioConstraint0 scenarioWitness).2 (by decide)
